import Mathlib

/-!
Verification of the crypto-sign-challenge signer (src/main.go).

The Go program is shallowly embedded here:

* byte strings are modeled as lists of natural numbers, each element a
  byte value below 256 (ASCII codes for textual data);
* the Go standard-library codecs the program calls (encoding/base64
  StdEncoding, encoding/asn1 marshalling of a two-integer SEQUENCE,
  encoding/pem encode/decode, crypto/x509 EC private-key (de)serialization,
  crypto/sha256, crypto/ecdsa) are embedded as executable Lean functions
  following the documented behaviour of those packages;
* randomness (the ECDSA nonce and the generated key) is passed as an
  explicit argument, and file-system state is passed explicitly as an
  optional byte-list content;
* a Go runtime panic (nil-pointer dereference) is a distinguished result
  constructor, separate from an error return.
-/

set_option maxRecDepth 10000
set_option maxHeartbeats 1000000

namespace SignerGo

/-- ASCII codes of a string literal, used to write byte lists readably. -/
def ascii (s : String) : List Nat := s.data.map Char.toNat

/-- Big-endian interpretation of a byte list as a natural number
(the behaviour of big.Int.SetBytes). -/
def beToNat (bs : List Nat) : Nat := bs.foldl (fun acc b => acc * 256 + b) 0

/-- Fuel-driven minimal big-endian byte expansion; fuel at least the number
itself always suffices since the argument is quartered each step. -/
def natToBEAux : Nat → Nat → List Nat
  | 0, _ => []
  | fuel + 1, n => if n = 0 then [] else natToBEAux fuel (n / 256) ++ [n % 256]

/-- Minimal big-endian byte expansion of a natural number
(the behaviour of big.Int.Bytes: no leading zero bytes, empty for 0). -/
def natToBE (n : Nat) : List Nat := natToBEAux n n

/-- Big-endian expansion left-padded with zeros to a fixed width
(the behaviour of big.Int.FillBytes). -/
def natToBEPad (width n : Nat) : List Nat :=
  List.replicate (width - (natToBE n).length) 0 ++ natToBE n

/-- Fuel-driven bit-length loop. -/
def bitLenAux : Nat → Nat → Nat
  | 0, _ => 0
  | fuel + 1, n => if n = 0 then 0 else bitLenAux fuel (n / 2) + 1

/-- Bit length of a natural number (big.Int.BitLen). -/
def bitLen (n : Nat) : Nat := bitLenAux n n

/-! ## base64 (encoding/base64, StdEncoding: non-URL alphabet, padded) -/

/-- Byte value of the standard base64 alphabet character for a sextet. -/
def b64Code (v : Nat) : Nat :=
  if v < 26 then 65 + v
  else if v < 52 then 97 + (v - 26)
  else if v < 62 then 48 + (v - 52)
  else if v = 62 then 43
  else 47

/-- Inverse of the standard base64 alphabet: sextet value of a byte,
none for bytes outside the alphabet. -/
def b64Dec (b : Nat) : Option Nat :=
  if 65 ≤ b ∧ b ≤ 90 then some (b - 65)
  else if 97 ≤ b ∧ b ≤ 122 then some (26 + (b - 97))
  else if 48 ≤ b ∧ b ≤ 57 then some (52 + (b - 48))
  else if b = 43 then some 62
  else if b = 47 then some 63
  else none

/-- Base64 encoding with '=' (byte 61) padding, three input bytes per
four output bytes (base64.StdEncoding.EncodeToString). -/
def b64Encode : List Nat → List Nat
  | [] => []
  | [a] => [b64Code (a / 4), b64Code (a % 4 * 16), 61, 61]
  | [a, b] => [b64Code (a / 4), b64Code (a % 4 * 16 + b / 16), b64Code (b % 16 * 4), 61]
  | a :: b :: c :: rest =>
      b64Code (a / 4) :: b64Code (a % 4 * 16 + b / 16) ::
      b64Code (b % 16 * 4 + c / 64) :: b64Code (c % 64) :: b64Encode rest

/-- Base64 decoding (base64.StdEncoding.DecodeString): input must be a
multiple of four bytes, '=' padding only at the very end. -/
def b64Decode : List Nat → Option (List Nat)
  | [] => some []
  | c1 :: c2 :: c3 :: c4 :: rest =>
      match b64Dec c1, b64Dec c2 with
      | some v1, some v2 =>
        if c3 = 61 then
          if c4 = 61 ∧ rest = [] then some [v1 * 4 + v2 / 16] else none
        else
          match b64Dec c3 with
          | some v3 =>
            if c4 = 61 then
              if rest = [] then some [v1 * 4 + v2 / 16, v2 % 16 * 16 + v3 / 4] else none
            else
              match b64Dec c4 with
              | some v4 =>
                (b64Decode rest).map
                  (fun tl => (v1 * 4 + v2 / 16) :: (v2 % 16 * 16 + v3 / 4) ::
                             (v3 % 4 * 64 + v4) :: tl)
              | none => none
          | none => none
      | _, _ => none
  | _ => none

/-! ### base64 lemmas -/

theorem b64Dec_b64Code : ∀ v, v < 64 → b64Dec (b64Code v) = some v := by decide

theorem b64Code_ne_61 : ∀ v, v < 64 → b64Code v ≠ 61 := by decide

theorem b64Decode_quad (v1 v2 v3 v4 : Nat) (h1 : v1 < 64) (h2 : v2 < 64)
    (h3 : v3 < 64) (h4 : v4 < 64) (rest : List Nat) :
    b64Decode (b64Code v1 :: b64Code v2 :: b64Code v3 :: b64Code v4 :: rest) =
      (b64Decode rest).map
        (fun tl => (v1 * 4 + v2 / 16) :: (v2 % 16 * 16 + v3 / 4) ::
                   (v3 % 4 * 64 + v4) :: tl) := by
  simp only [b64Decode, b64Dec_b64Code _ h1, b64Dec_b64Code _ h2,
    b64Dec_b64Code _ h3, b64Dec_b64Code _ h4,
    b64Code_ne_61 _ h3, b64Code_ne_61 _ h4, if_false, ite_false]

theorem b64Decode_pad2 (v1 v2 : Nat) (h1 : v1 < 64) (h2 : v2 < 64) :
    b64Decode [b64Code v1, b64Code v2, 61, 61] = some [v1 * 4 + v2 / 16] := by
  simp only [b64Decode, b64Dec_b64Code _ h1, b64Dec_b64Code _ h2]
  simp

theorem b64Decode_pad1 (v1 v2 v3 : Nat) (h1 : v1 < 64) (h2 : v2 < 64) (h3 : v3 < 64) :
    b64Decode [b64Code v1, b64Code v2, b64Code v3, 61] =
      some [v1 * 4 + v2 / 16, v2 % 16 * 16 + v3 / 4] := by
  simp only [b64Decode, b64Dec_b64Code _ h1, b64Dec_b64Code _ h2,
    b64Dec_b64Code _ h3, b64Code_ne_61 _ h3]
  rfl

theorem b64Decode_b64Encode (bs : List Nat) (h : ∀ b ∈ bs, b < 256) :
    b64Decode (b64Encode bs) = some bs := by
  induction bs using b64Encode.induct with
  | case1 => rfl
  | case2 a =>
      have ha : a < 256 := h a (by simp)
      rw [b64Encode, b64Decode_pad2 _ _ (by omega) (by omega)]
      congr 2
      omega
  | case3 a b =>
      have ha : a < 256 := h a (by simp)
      have hb : b < 256 := h b (by simp)
      rw [b64Encode, b64Decode_pad1 _ _ _ (by omega) (by omega) (by omega)]
      congr 2
      · omega
      · congr 1
        omega
  | case4 a b c rest ih =>
      have ha : a < 256 := h a (by simp)
      have hb : b < 256 := h b (by simp)
      have hc : c < 256 := h c (by simp)
      have hrest : ∀ x ∈ rest, x < 256 := fun x hx => h x (by simp [hx])
      rw [b64Encode, b64Decode_quad _ _ _ _ (by omega) (by omega) (by omega) (by omega),
        ih hrest]
      simp only [Option.map_some']
      congr 2
      · omega
      · congr 1
        · omega
        congr 1
        omega

/-! ## DER primitives (encoding/asn1)

A DER element is a tag byte, a length (short form below 128, otherwise a
long form whose first byte is 128 plus the number of length bytes), and the
content bytes.  Marshalled integers are minimal big-endian two's complement;
non-negative values with a high first bit get a leading zero byte. -/

/-- DER length bytes: short form for lengths below 128, minimal long form
otherwise. -/
def derLen (n : Nat) : List Nat :=
  if n < 128 then [n] else (128 + (natToBE n).length) :: natToBE n

/-- A DER tag-length-value element. -/
def tlv (tag : Nat) (content : List Nat) : List Nat :=
  tag :: (derLen content.length ++ content)

/-- Content bytes of a marshalled ASN.1 INTEGER holding the non-negative
value v (encoding/asn1 marshalling of a big.Int). -/
def asn1IntBytes (v : Nat) : List Nat :=
  match natToBE v with
  | [] => [0]
  | b :: tl => if 128 ≤ b then 0 :: b :: tl else b :: tl

/-- The ASN.1 encoding of the ecdsaSig structure from the source:
SEQUENCE of two INTEGERs (asn1.Marshal of ecdsaSig with R and S). -/
def asn1MarshalSig (r s : Nat) : List Nat :=
  tlv 48 (tlv 2 (asn1IntBytes r) ++ tlv 2 (asn1IntBytes s))

/-- Read a DER length, returning it and the remaining bytes.  The
indefinite form and non-minimal long forms are rejected, as in
encoding/asn1 parseTagAndLength. -/
def readLen : List Nat → Option (Nat × List Nat)
  | [] => none
  | b :: rest =>
      if b < 128 then some (b, rest)
      else if b - 128 = 0 then none
      else if rest.length < b - 128 then none
      else if beToNat (rest.take (b - 128)) < 128 then none
      else some (beToNat (rest.take (b - 128)), rest.drop (b - 128))

/-- Read a DER element with the expected tag, returning its content and
the bytes after the element. -/
def readTLV (tag : Nat) : List Nat → Option (List Nat × List Nat)
  | [] => none
  | t :: rest =>
      if t = tag then
        match readLen rest with
        | some (n, rest2) =>
            if rest2.length < n then none else some (rest2.take n, rest2.drop n)
        | none => none
      else none

/-- Parse ASN.1 INTEGER content bytes into a big.Int value (encoding/asn1
parseBigInt with its checkInteger minimality test); the first bit is the
two's-complement sign. -/
def parseBigIntBytes : List Nat → Option Int
  | [] => none
  | [b] => some (if 128 ≤ b then (b : Int) - 256 else (b : Int))
  | b1 :: b2 :: rest =>
      if (b1 = 0 ∧ b2 < 128) ∨ (b1 = 255 ∧ 128 ≤ b2) then none
      else if 128 ≤ b1 then
        some ((beToNat (b1 :: b2 :: rest) : Int) - 2 ^ (8 * (rest.length + 2)))
      else some ((beToNat (b1 :: b2 :: rest) : Int))

/-- Decode the ASN.1 encoding of ecdsaSig: a SEQUENCE of exactly two
INTEGERs (asn1.Unmarshal into the ecdsaSig structure; bytes after the
sequence are returned as rest and ignored by the callers). -/
def asn1UnmarshalSig (bs : List Nat) : Option (Int × Int) :=
  match readTLV 48 bs with
  | some (content, _) =>
      match readTLV 2 content with
      | some (rb, rest1) =>
          match parseBigIntBytes rb with
          | some r =>
              match readTLV 2 rest1 with
              | some (sb, rest2) =>
                  match parseBigIntBytes sb with
                  | some s => if rest2 = [] then some (r, s) else none
                  | none => none
              | none => none
          | none => none
      | none => none
  | none => none

/-! ### byte-expansion lemmas -/

theorem beToNat_append_singleton (bs : List Nat) (b : Nat) :
    beToNat (bs ++ [b]) = beToNat bs * 256 + b := by
  simp [beToNat, List.foldl_append]

theorem beToNat_natToBEAux (fuel n : Nat) (h : n ≤ fuel) :
    beToNat (natToBEAux fuel n) = n := by
  induction fuel generalizing n with
  | zero => interval_cases n <;> rfl
  | succ fuel ih =>
      by_cases hn : n = 0
      · simp [natToBEAux, hn, beToNat]
      · rw [natToBEAux, if_neg hn, beToNat_append_singleton, ih _ (by omega)]
        omega

theorem beToNat_natToBE (n : Nat) : beToNat (natToBE n) = n :=
  beToNat_natToBEAux n n le_rfl

theorem natToBEAux_mem_lt (fuel n : Nat) : ∀ b ∈ natToBEAux fuel n, b < 256 := by
  induction fuel generalizing n with
  | zero => simp [natToBEAux]
  | succ fuel ih =>
      intro b hb
      rw [natToBEAux] at hb
      by_cases hn : n = 0
      · simp [hn] at hb
      · rw [if_neg hn] at hb
        rcases List.mem_append.mp hb with h | h
        · exact ih _ _ h
        · simp at h
          omega

theorem natToBE_mem_lt (n : Nat) : ∀ b ∈ natToBE n, b < 256 :=
  natToBEAux_mem_lt n n

theorem natToBEAux_length_le (fuel k n : Nat) (hf : n ≤ fuel) (h : n < 256 ^ k) :
    (natToBEAux fuel n).length ≤ k := by
  induction fuel generalizing n k with
  | zero => interval_cases n <;> simp [natToBEAux]
  | succ fuel ih =>
      by_cases hn : n = 0
      · simp [natToBEAux, hn]
      · rw [natToBEAux, if_neg hn]
        cases k with
        | zero => omega
        | succ k =>
            have hdiv : n / 256 < 256 ^ k :=
              Nat.div_lt_of_lt_mul (by rw [Nat.mul_comm, ← Nat.pow_succ]; exact h)
            have := ih k (n / 256) (by omega) hdiv
            simp [List.length_append]
            omega

theorem natToBE_length_le (k n : Nat) (h : n < 256 ^ k) : (natToBE n).length ≤ k :=
  natToBEAux_length_le n k n le_rfl h

theorem natToBEAux_head (fuel n : Nat) (hn : n ≠ 0) (hf : n ≤ fuel) :
    ∃ b tl, natToBEAux fuel n = b :: tl ∧ b ≠ 0 ∧ b < 256 := by
  induction fuel generalizing n with
  | zero => omega
  | succ fuel ih =>
      rw [natToBEAux, if_neg hn]
      by_cases h2 : n / 256 = 0
      · refine ⟨n % 256, [], ?_, ?_, by omega⟩
        · rw [show natToBEAux fuel (n / 256) = [] from ?_]
          · rfl
          · cases fuel with
            | zero => rfl
            | succ fuel => rw [natToBEAux, if_pos h2]
        · omega
      · obtain ⟨b, tl, heq, hb0, hb⟩ := ih (n / 256) h2 (by omega)
        exact ⟨b, tl ++ [n % 256], by rw [heq]; rfl, hb0, hb⟩

theorem natToBE_head (n : Nat) (hn : n ≠ 0) :
    ∃ b tl, natToBE n = b :: tl ∧ b ≠ 0 ∧ b < 256 :=
  natToBEAux_head n n hn le_rfl

theorem beToNat_replicate_zero (k : Nat) (bs : List Nat) :
    beToNat (List.replicate k 0 ++ bs) = beToNat bs := by
  induction k with
  | zero => rfl
  | succ k ih =>
      have : List.replicate (k + 1) 0 ++ bs = 0 :: (List.replicate k 0 ++ bs) := by
        simp [List.replicate_succ]
      rw [this]
      simpa [beToNat] using ih

theorem beToNat_natToBEPad (width n : Nat) :
    beToNat (natToBEPad width n) = n := by
  rw [natToBEPad, beToNat_replicate_zero, beToNat_natToBE]

theorem natToBEPad_length (width n : Nat) (h : n < 256 ^ width) :
    (natToBEPad width n).length = width := by
  have := natToBE_length_le width n h
  simp [natToBEPad, List.length_append, List.length_replicate]
  omega

theorem natToBEPad_mem_lt (width n : Nat) : ∀ b ∈ natToBEPad width n, b < 256 := by
  intro b hb
  rcases List.mem_append.mp hb with h | h
  · simp [List.eq_of_mem_replicate h]
  · exact natToBE_mem_lt n b h

/-! ### DER lemmas -/

theorem take_len_append (l r : List Nat) : (l ++ r).take l.length = l := by
  simpa using List.take_left l r

theorem drop_len_append (l r : List Nat) : (l ++ r).drop l.length = r := by
  simpa using List.drop_left l r

theorem readLen_derLen (n : Nat) (rest : List Nat) :
    readLen (derLen n ++ rest) = some (n, rest) := by
  by_cases h : n < 128
  · simp [derLen, readLen, h]
  · obtain ⟨b, tl, heq, hb0, hb⟩ := natToBE_head n (by omega)
    have hlen : (natToBE n).length ≠ 0 := by rw [heq]; simp
    rw [derLen, if_neg h]
    rw [show ((128 + (natToBE n).length) :: natToBE n) ++ rest =
          (128 + (natToBE n).length) :: (natToBE n ++ rest) from rfl]
    rw [readLen, if_neg (by omega)]
    simp only [Nat.add_sub_cancel_left]
    rw [if_neg (by omega)]
    rw [if_neg (by simp [List.length_append])]
    rw [take_len_append, drop_len_append, beToNat_natToBE]
    rw [if_neg (by omega)]

theorem readTLV_tlv (tag : Nat) (content rest : List Nat) :
    readTLV tag (tlv tag content ++ rest) = some (content, rest) := by
  rw [show tlv tag content ++ rest = tag :: (derLen content.length ++ (content ++ rest)) from by
    simp [tlv]]
  rw [readTLV, if_pos rfl, readLen_derLen]
  show (if (content ++ rest).length < content.length then none
        else some ((content ++ rest).take content.length, (content ++ rest).drop content.length)) =
      some (content, rest)
  rw [if_neg (by simp [List.length_append])]
  rw [take_len_append, drop_len_append]

theorem parseBigIntBytes_asn1IntBytes (v : Nat) :
    parseBigIntBytes (asn1IntBytes v) = some (v : Int) := by
  by_cases hv : v = 0
  · simp [hv, asn1IntBytes, natToBE, natToBEAux, parseBigIntBytes]
  · obtain ⟨b, tl, heq, hb0, hb⟩ := natToBE_head v hv
    have hval : beToNat (b :: tl) = v := by rw [← heq, beToNat_natToBE]
    have hunf : asn1IntBytes v = if 128 ≤ b then 0 :: b :: tl else b :: tl := by
      simp only [asn1IntBytes, heq]
    rw [hunf]
    by_cases hhi : 128 ≤ b
    · rw [if_pos hhi, parseBigIntBytes]
      rw [if_neg (by omega), if_neg (by omega)]
      have hz : beToNat (0 :: b :: tl) = v := by
        have := beToNat_replicate_zero 1 (b :: tl)
        simpa [hval] using this
      rw [hz]
    · rw [if_neg hhi]
      cases tl with
      | nil =>
          have hbv : b = v := by simpa [beToNat] using hval
          simp only [parseBigIntBytes, hbv]
          rw [if_neg (by omega)]
      | cons b2 tl2 =>
          rw [parseBigIntBytes]
          rw [if_neg (by omega), if_neg (by omega), hval]

theorem asn1UnmarshalSig_marshal (r s : Nat) :
    asn1UnmarshalSig (asn1MarshalSig r s) = some ((r : Int), (s : Int)) := by
  have h1 : readTLV 48 (asn1MarshalSig r s) =
      some (tlv 2 (asn1IntBytes r) ++ tlv 2 (asn1IntBytes s), []) := by
    rw [asn1MarshalSig, show tlv 48 (tlv 2 (asn1IntBytes r) ++ tlv 2 (asn1IntBytes s)) =
          tlv 48 (tlv 2 (asn1IntBytes r) ++ tlv 2 (asn1IntBytes s)) ++ [] from by simp]
    exact readTLV_tlv _ _ _
  have h2 : readTLV 2 (tlv 2 (asn1IntBytes r) ++ tlv 2 (asn1IntBytes s)) =
      some (asn1IntBytes r, tlv 2 (asn1IntBytes s)) := readTLV_tlv _ _ _
  have h3 : readTLV 2 (tlv 2 (asn1IntBytes s)) = some (asn1IntBytes s, []) := by
    rw [show tlv 2 (asn1IntBytes s) = tlv 2 (asn1IntBytes s) ++ [] from by simp]
    exact readTLV_tlv _ _ _
  simp only [asn1UnmarshalSig, h1, h2, h3, parseBigIntBytes_asn1IntBytes]
  simp

theorem asn1IntBytes_mem_lt (v : Nat) : ∀ b ∈ asn1IntBytes v, b < 256 := by
  intro b hb
  rw [asn1IntBytes] at hb
  rcases hmatch : natToBE v with _ | ⟨b1, tl⟩
  · rw [hmatch] at hb
    simp at hb
    omega
  · rw [hmatch] at hb
    dsimp only at hb
    have hmem : ∀ x ∈ b1 :: tl, x < 256 := by
      rw [← hmatch]
      exact natToBE_mem_lt v
    by_cases hhi : 128 ≤ b1
    · rw [if_pos hhi] at hb
      rcases List.mem_cons.mp hb with h | h
      · omega
      · exact hmem b h
    · rw [if_neg hhi] at hb
      exact hmem b hb

theorem asn1IntBytes_length (v : Nat) :
    (asn1IntBytes v).length ≤ (natToBE v).length + 1 := by
  rw [asn1IntBytes]
  rcases hmatch : natToBE v with _ | ⟨b1, tl⟩ <;> simp
  by_cases hhi : 128 ≤ b1
  · rw [if_pos hhi]
    simp
  · rw [if_neg hhi]
    simp

theorem le_pow_127 (n : Nat) (h : n ≤ 1000) : n < 256 ^ 127 := by
  have h1 : (256 : Nat) ^ 1 ≤ 256 ^ 127 := Nat.pow_le_pow_right (by norm_num) (by norm_num)
  have h2 : (1000 : Nat) < 256 ^ 2 := by norm_num
  have h3 : (256 : Nat) ^ 2 ≤ 256 ^ 127 := Nat.pow_le_pow_right (by norm_num) (by norm_num)
  omega

theorem derLen_mem_lt (n : Nat) (h : n < 256 ^ 127) : ∀ b ∈ derLen n, b < 256 := by
  intro b hb
  rw [derLen] at hb
  by_cases hs : n < 128
  · rw [if_pos hs] at hb
    simp at hb
    omega
  · rw [if_neg hs] at hb
    have hlen : (natToBE n).length ≤ 127 := natToBE_length_le 127 n h
    rcases List.mem_cons.mp hb with h1 | h1
    · omega
    · exact natToBE_mem_lt n b h1

theorem tlv_mem_lt (tag : Nat) (content : List Nat) (htag : tag < 256)
    (hlen : content.length < 256 ^ 127) (hmem : ∀ b ∈ content, b < 256) :
    ∀ b ∈ tlv tag content, b < 256 := by
  intro b hb
  rw [tlv] at hb
  rcases List.mem_cons.mp hb with h | h
  · omega
  · rcases List.mem_append.mp h with h1 | h1
    · exact derLen_mem_lt _ hlen b h1
    · exact hmem b h1

theorem asn1MarshalSig_mem_lt (r s : Nat) (hr : r < 256 ^ 126) (hs : s < 256 ^ 126) :
    ∀ b ∈ asn1MarshalSig r s, b < 256 := by
  have hrlen : (asn1IntBytes r).length ≤ 127 := by
    have := asn1IntBytes_length r
    have := natToBE_length_le 126 r hr
    omega
  have hslen : (asn1IntBytes s).length ≤ 127 := by
    have := asn1IntBytes_length s
    have := natToBE_length_le 126 s hs
    omega
  have hrtlv : (tlv 2 (asn1IntBytes r)).length ≤ 130 := by
    rw [tlv, derLen, if_pos (by omega)]
    simp
    omega
  have hstlv : (tlv 2 (asn1IntBytes s)).length ≤ 130 := by
    rw [tlv, derLen, if_pos (by omega)]
    simp
    omega
  apply tlv_mem_lt 48 _ (by norm_num)
  · apply le_pow_127
    simp [List.length_append]
    omega
  · intro b hb
    rcases List.mem_append.mp hb with h1 | h1
    · exact tlv_mem_lt 2 _ (by norm_num) (le_pow_127 _ (by omega)) (asn1IntBytes_mem_lt r) b h1
    · exact tlv_mem_lt 2 _ (by norm_num) (le_pow_127 _ (by omega)) (asn1IntBytes_mem_lt s) b h1

/-- The signature text encoding used by the source: ASN.1 marshal of
ecdsaSig followed by standard padded base64 (sign, main.go lines 196-203). -/
def sigTextEncode (r s : Nat) : List Nat := b64Encode (asn1MarshalSig r s)

/-- The signature text decoding used for verification: standard base64
decode followed by ASN.1 unmarshal (main_test.go TestValidSignature). -/
def sigTextDecode (bs : List Nat) : Option (Int × Int) :=
  (b64Decode bs).bind asn1UnmarshalSig

theorem sigTextDecode_sigTextEncode (r s : Nat)
    (hr : r < 256 ^ 126) (hs : s < 256 ^ 126) :
    sigTextDecode (sigTextEncode r s) = some ((r : Int), (s : Int)) := by
  rw [sigTextEncode, sigTextDecode,
    b64Decode_b64Encode _ (asn1MarshalSig_mem_lt r s hr hs)]
  simpa using asn1UnmarshalSig_marshal r s

/-! ## SHA-256 (crypto/sha256), executable on byte lists -/

/-- Reduction to a 32-bit word. -/
def w32 (x : Nat) : Nat := x % 4294967296

/-- Right rotation within 32 bits. -/
def rotr32 (n x : Nat) : Nat := w32 ((x >>> n) ||| (x <<< (32 - n)))

/-- SHA-256 big sigma 0. -/
def bsig0 (x : Nat) : Nat := rotr32 2 x ^^^ rotr32 13 x ^^^ rotr32 22 x

/-- SHA-256 big sigma 1. -/
def bsig1 (x : Nat) : Nat := rotr32 6 x ^^^ rotr32 11 x ^^^ rotr32 25 x

/-- SHA-256 small sigma 0. -/
def ssig0 (x : Nat) : Nat := rotr32 7 x ^^^ rotr32 18 x ^^^ (x >>> 3)

/-- SHA-256 small sigma 1. -/
def ssig1 (x : Nat) : Nat := rotr32 17 x ^^^ rotr32 19 x ^^^ (x >>> 10)

/-- SHA-256 choose function; complement is within 32 bits. -/
def chF (x y z : Nat) : Nat := (x &&& y) ^^^ ((x ^^^ 4294967295) &&& z)

/-- SHA-256 majority function. -/
def majF (x y z : Nat) : Nat := (x &&& y) ^^^ (x &&& z) ^^^ (y &&& z)

/-- The 64 SHA-256 round constants. -/
def sha256K : List Nat := [
  1116352408, 1899447441, 3049323471, 3921009573, 961987163, 1508970993, 2453635748, 2870763221,
  3624381080, 310598401, 607225278, 1426881987, 1925078388, 2162078206, 2614888103, 3248222580,
  3835390401, 4022224774, 264347078, 604807628, 770255983, 1249150122, 1555081692, 1996064986,
  2554220882, 2821834349, 2952996808, 3210313671, 3336571891, 3584528711, 113926993, 338241895,
  666307205, 773529912, 1294757372, 1396182291, 1695183700, 1986661051, 2177026350, 2456956037,
  2730485921, 2820302411, 3259730800, 3345764771, 3516065817, 3600352804, 4094571909, 275423344,
  430227734, 506948616, 659060556, 883997877, 958139571, 1322822218, 1537002063, 1747873779,
  1955562222, 2024104815, 2227730452, 2361852424, 2428436474, 2756734187, 3204031479, 3329325298]

/-- The eight-word SHA-256 working state. -/
structure Hash8 where
  a : Nat
  b : Nat
  c : Nat
  d : Nat
  e : Nat
  f : Nat
  g : Nat
  h : Nat

/-- The SHA-256 initial state. -/
def sha256H0 : Hash8 :=
  ⟨1779033703, 3144134277, 1013904242, 2773480762, 1359893119, 2600822924, 528734635, 1541459225⟩

/-- Merkle-Damgard strengthening: append the 0x80 marker, zeros to 56 mod
64, and the 8-byte big-endian bit length. -/
def sha256Pad (msg : List Nat) : List Nat :=
  msg ++ 128 :: (List.replicate ((64 - (msg.length + 9) % 64) % 64) 0 ++
    natToBEPad 8 (msg.length * 8))

/-- Big-endian 32-bit words of a 64-byte block. -/
def toWords : List Nat → List Nat
  | a :: b :: c :: d :: rest => (a * 16777216 + b * 65536 + c * 256 + d) :: toWords rest
  | _ => []

/-- Message-schedule extension: appends the given number of scheduled
words to the 16 block words. -/
def extendW : Nat → List Nat → List Nat
  | 0, w => w
  | n + 1, w =>
      extendW n (w ++ [w32 (ssig1 (w.getD (w.length - 2) 0) + w.getD (w.length - 7) 0 +
                            ssig0 (w.getD (w.length - 15) 0) + w.getD (w.length - 16) 0)])

/-- One SHA-256 round; kw is the round constant plus the scheduled word. -/
def roundStep (kw : Nat) (s : Hash8) : Hash8 :=
  ⟨w32 (w32 (s.h + bsig1 s.e + chF s.e s.f s.g + kw) + w32 (bsig0 s.a + majF s.a s.b s.c)),
   s.a, s.b, s.c,
   w32 (s.d + w32 (s.h + bsig1 s.e + chF s.e s.f s.g + kw)),
   s.e, s.f, s.g⟩

/-- The 64-round compression loop. -/
def rounds : List Nat → Hash8 → Hash8
  | [], s => s
  | kw :: rest, s => rounds rest (roundStep kw s)

/-- Compression of one 64-byte chunk into the running state. -/
def processChunk (s : Hash8) (chunk : List Nat) : Hash8 :=
  let r := rounds (List.zipWith (fun k x => k + x) sha256K (extendW 48 (toWords chunk))) s
  ⟨w32 (s.a + r.a), w32 (s.b + r.b), w32 (s.c + r.c), w32 (s.d + r.d),
   w32 (s.e + r.e), w32 (s.f + r.f), w32 (s.g + r.g), w32 (s.h + r.h)⟩

/-- Fuel-driven split into 64-byte chunks; fuel at least the list length
always suffices. -/
def chunks64 : Nat → List Nat → List (List Nat)
  | 0, _ => []
  | _ + 1, [] => []
  | fuel + 1, b :: bs => (b :: bs).take 64 :: chunks64 fuel ((b :: bs).drop 64)

/-- The SHA-256 digest (sha256.Sum256): 32 bytes. -/
def sha256 (msg : List Nat) : List Nat :=
  let final := (chunks64 (sha256Pad msg).length (sha256Pad msg)).foldl processChunk sha256H0
  natToBEPad 4 final.a ++ natToBEPad 4 final.b ++ natToBEPad 4 final.c ++
  natToBEPad 4 final.d ++ natToBEPad 4 final.e ++ natToBEPad 4 final.f ++
  natToBEPad 4 final.g ++ natToBEPad 4 final.h

/-- The shaSum function of the source (main.go lines 224-243): computes
the SHA-256 checksum of the input and copies it element-wise into a fresh
slice, which is returned. -/
def shaSum (input : List Nat) : List Nat := (sha256 input).map (fun b => b)

/-! ## ECDSA (crypto/ecdsa)

The curve is modeled by its cyclic scalar group of prime order n: a scalar
a (mod n) stands for the point a·G, and the public key d·G is represented
by the secret scalar d.  xOfMul a is the integer x-coordinate of the point
a·G; its values are unconstrained here, which only widens the set of
behaviours the theorems must cover.  The nonce k is an explicit argument
standing for one draw of randFieldElement (which always returns a nonzero
residue; a zero draw is mapped to the retry result none). -/

/-- Abstract model of the curve: group order and x-coordinate function. -/
structure CurveGroup where
  n : Nat
  xOfMul : Nat → Nat

/-- Modular inverse for a prime modulus, by Fermat exponentiation
(the value big.Int.ModInverse returns for these arguments). -/
def invMod (n a : Nat) : Nat := a ^ (n - 2) % n

/-- Truncation of a digest to the bit length of the group order
(crypto/ecdsa hashToInt): keep the leading orderBytes bytes, then shift
out the excess bits. -/
def hashToInt (n : Nat) (hash : List Nat) : Nat :=
  beToNat (if (bitLen n + 7) / 8 < hash.length then hash.take ((bitLen n + 7) / 8) else hash) >>>
    ((if (bitLen n + 7) / 8 < hash.length then hash.take ((bitLen n + 7) / 8) else hash).length * 8
      - bitLen n)

/-- One signing attempt with nonce k (ecdsa.Sign with the retry loop made
explicit: none answers for the rejected draws r = 0 or s = 0, on which Go
redraws the nonce). -/
def ecdsaSignWith (C : CurveGroup) (d k : Nat) (hash : List Nat) : Option (Nat × Nat) :=
  if k % C.n = 0 then none
  else if C.xOfMul (k % C.n) % C.n = 0 then none
  else if invMod C.n k * (hashToInt C.n hash + C.xOfMul (k % C.n) % C.n * d) % C.n = 0 then none
  else some (C.xOfMul (k % C.n) % C.n,
             invMod C.n k * (hashToInt C.n hash + C.xOfMul (k % C.n) % C.n * d) % C.n)

/-- Signature verification (ecdsa.Verify): range-check r and s, recover
the point u1·G + u2·Q, reject the point at infinity, and compare its
x-coordinate with r modulo the order. -/
def ecdsaVerify (C : CurveGroup) (pub : Nat) (hash : List Nat) (r s : Nat) : Bool :=
  if r = 0 ∨ C.n ≤ r ∨ s = 0 ∨ C.n ≤ s then false
  else if (hashToInt C.n hash * invMod C.n s % C.n + r * invMod C.n s % C.n * pub) % C.n = 0
    then false
  else C.xOfMul ((hashToInt C.n hash * invMod C.n s % C.n +
                  r * invMod C.n s % C.n * pub) % C.n) % C.n == r

theorem invMod_cast (n a : Nat) [hp : Fact (Nat.Prime n)] (ha : (a : ZMod n) ≠ 0) :
    ((invMod n a : Nat) : ZMod n) = (a : ZMod n)⁻¹ := by
  have hn : 2 ≤ n := hp.out.two_le
  have h2 : (a : ZMod n) * (a : ZMod n) ^ (n - 2) = 1 := by
    have h1 : (a : ZMod n) ^ (n - 1) = 1 := ZMod.pow_card_sub_one_eq_one ha
    calc (a : ZMod n) * (a : ZMod n) ^ (n - 2)
        = (a : ZMod n) ^ (n - 2 + 1) := by ring
      _ = (a : ZMod n) ^ (n - 1) := by rw [show n - 2 + 1 = n - 1 from by omega]
      _ = 1 := h1
  rw [invMod, ZMod.natCast_mod, Nat.cast_pow]
  exact (inv_eq_of_mul_eq_one_right h2).symm

theorem ecdsa_core (n : Nat) [hp : Fact (Nat.Prime n)] (d k z r : Nat)
    (hk : k % n ≠ 0)
    (hs0 : invMod n k * (z + r * d) % n ≠ 0) :
    (z * invMod n (invMod n k * (z + r * d) % n) % n +
     r * invMod n (invMod n k * (z + r * d) % n) % n * d) % n = k % n := by
  haveI : NeZero n := ⟨hp.out.pos.ne'⟩
  set s := invMod n k * (z + r * d) % n with hsdef
  have hslt : s < n := Nat.mod_lt _ hp.out.pos
  have hkz : (k : ZMod n) ≠ 0 := by
    intro h0
    rw [ZMod.natCast_zmod_eq_zero_iff_dvd] at h0
    exact hk (Nat.eq_zero_of_dvd_of_lt h0 |> fun _ => Nat.mod_eq_zero_of_dvd h0)
  have hsz : (s : ZMod n) ≠ 0 := by
    intro h0
    have hv := ZMod.val_natCast_of_lt hslt
    rw [h0, ZMod.val_zero] at hv
    exact hs0 hv.symm
  have hScast : (s : ZMod n) = (k : ZMod n)⁻¹ * ((z : ZMod n) + (r : ZMod n) * (d : ZMod n)) := by
    rw [hsdef, ZMod.natCast_mod]
    push_cast
    rw [invMod_cast n k hkz]
  have hXnz : (z : ZMod n) + (r : ZMod n) * (d : ZMod n) ≠ 0 := by
    intro h0
    rw [h0, mul_zero] at hScast
    exact hsz hScast
  have hWcast : ((invMod n s : Nat) : ZMod n) = ((s : ZMod n))⁻¹ := invMod_cast n s hsz
  rw [← ZMod.natCast_eq_natCast_iff']
  push_cast [ZMod.natCast_mod]
  rw [hWcast, hScast, mul_inv, inv_inv]
  field_simp
  ring

theorem ecdsaVerify_ecdsaSignWith (C : CurveGroup) [hp : Fact (Nat.Prime C.n)]
    (d k : Nat) (hash : List Nat) (r s : Nat)
    (hsig : ecdsaSignWith C d k hash = some (r, s)) :
    ecdsaVerify C d hash r s = true := by
  have hpos : 0 < C.n := hp.out.pos
  rw [ecdsaSignWith] at hsig
  split_ifs at hsig with hk hr0 hs0
  rw [Option.some_inj, Prod.mk.injEq] at hsig
  obtain ⟨hr, hs⟩ := hsig
  subst hr
  subst hs
  rw [ecdsaVerify]
  have hrlt : C.xOfMul (k % C.n) % C.n < C.n := Nat.mod_lt _ hpos
  have hslt : invMod C.n k * (hashToInt C.n hash + C.xOfMul (k % C.n) % C.n * d) % C.n < C.n :=
    Nat.mod_lt _ hpos
  rw [if_neg (by push_neg; omega)]
  have hcore := ecdsa_core C.n d k (hashToInt C.n hash) (C.xOfMul (k % C.n) % C.n) hk hs0
  rw [hcore, if_neg hk]
  simp

/-! ## Named curves and x509 EC key (de)serialization (crypto/elliptic, crypto/x509) -/

/-- The named curves supported by crypto/x509 for EC private keys. -/
inductive Curve where
  | P224
  | P256
  | P384
  | P521
deriving DecidableEq

/-- DER content bytes of the named-curve object identifier. -/
def curveOID : Curve → List Nat
  | .P224 => [43, 129, 4, 0, 33]
  | .P256 => [42, 134, 72, 206, 61, 3, 1, 7]
  | .P384 => [43, 129, 4, 0, 34]
  | .P521 => [43, 129, 4, 0, 35]

/-- Byte length of field elements: (BitSize + 7) / 8. -/
def curveByteLen : Curve → Nat
  | .P224 => 28
  | .P256 => 32
  | .P384 => 48
  | .P521 => 66

/-- The group order N of each named curve. -/
def curveOrder : Curve → Nat
  | .P224 => 26959946667150639794667015087019625940457807714424391721682722368061
  | .P256 => 115792089210356248762697446949407573529996955224135760342422259061068512044369
  | .P384 => 39402006196394479212279040100143613805079739270465446667946905279627659399113263569398956308152294913554433653942643
  | .P521 => 6864797660130609714981900799081393217269435300143305409394463459185543183397655394245057746333217197532963996371363321113864768612440380340372808892707005449

/-- The field prime p of each named curve. -/
def curvePrime : Curve → Nat
  | .P224 => 26959946667150639794667015087019630673557916260026308143510066298881
  | .P256 => 115792089210356248762697446949407573530086143415290314195533631308867097853951
  | .P384 => 39402006196394479212279040100143613805079739270465446667948293404245721771496870329047266088258938001861606973112319
  | .P521 => 6864797660130609714981900799081393217269435300143305409394463459185543183397656052122559640661454554977296311391480858037121987999716643812574028291115057151

/-- The base point of each named curve. -/
def curveG : Curve → Nat × Nat
  | .P224 => (19277929113566293071110308034699488026831934219452440156649784352033,
              19926808758034470970197974370888749184205991990603949537637343198772)
  | .P256 => (48439561293906451759052585252797914202762949526041747995844080717082404635286,
              36134250956749795798585127919587881956611106672985015071877198253568414405109)
  | .P384 => (26247035095799689268623156744566981891852923491109213387815615900925518854738050089022388053975719786650872476732087,
              8325710961489029985546751289520108179287853048861315594709205902480503199884419224438643760392947333078086511627871)
  | .P521 => (2661740802050217063228768716723360960729859168756973147706671368418802944996427808491545080627771902352094241225065558662157113545570916814161637315895999846,
              3757180025770020463545507224491183603594455134769762486694567779615544477440556316691234405012945539562144444537289428522585666729196580810124344277578376784)

/-- Tangent-line doubling formulas mod p (curve parameter a = -3);
coordinates are expected reduced mod p. -/
def ecDbl (p x y : Nat) : Nat × Nat :=
  ((((3 * x * x + (p - 3)) * invMod p (2 * y) % p) ^ 2 + 2 * p - x - x) % p,
   ((3 * x * x + (p - 3)) * invMod p (2 * y) % p *
      ((x + p - ((((3 * x * x + (p - 3)) * invMod p (2 * y) % p) ^ 2 + 2 * p - x - x) % p)) % p)
    + p - y) % p)

/-- Chord formulas mod p for points with distinct x-coordinates;
coordinates are expected reduced mod p. -/
def ecChord (p x1 y1 x2 y2 : Nat) : Nat × Nat :=
  ((((y2 + p - y1) * invMod p (x2 + p - x1) % p) ^ 2 + 2 * p - x1 - x2) % p,
   ((y2 + p - y1) * invMod p (x2 + p - x1) % p *
      ((x1 + p - ((((y2 + p - y1) * invMod p (x2 + p - x1) % p) ^ 2 + 2 * p - x1 - x2) % p)) % p)
    + p - y1) % p)

/-- Affine point addition on the short-Weierstrass curve with a = -3
(the rational map computed by crypto/elliptic); none is the point at
infinity. -/
def ecAdd (c : Curve) : Option (Nat × Nat) → Option (Nat × Nat) → Option (Nat × Nat)
  | none, Q => Q
  | some P, none => some P
  | some (x1, y1), some (x2, y2) =>
      if x1 % curvePrime c = x2 % curvePrime c then
        if (y1 + y2) % curvePrime c = 0 then none
        else
          some (ecDbl (curvePrime c) (x1 % curvePrime c) (y1 % curvePrime c))
      else
        some (ecChord (curvePrime c) (x1 % curvePrime c) (y1 % curvePrime c)
          (x2 % curvePrime c) (y2 % curvePrime c))

/-- Fuel-driven double-and-add; fuel at least the scalar always suffices. -/
def scalarMulAux (c : Curve) : Nat → Nat → Option (Nat × Nat) → Option (Nat × Nat) →
    Option (Nat × Nat)
  | 0, _, acc, _ => acc
  | fuel + 1, k, acc, base =>
      if k = 0 then acc
      else scalarMulAux c fuel (k / 2) (if k % 2 = 1 then ecAdd c acc base else acc)
        (ecAdd c base base)

/-- Scalar multiple of the base point (elliptic.Curve.ScalarBaseMult);
the point at infinity comes back as the zero pair of big.Int values. -/
def scalarBaseMult (c : Curve) (d : Nat) : Nat × Nat :=
  match scalarMulAux c d d none (some (curveG c)) with
  | none => (0, 0)
  | some P => P

/-- An ECDSA key as crypto/x509 represents it: named curve, private
scalar, public point. -/
structure ECKey where
  curve : Curve
  d : Nat
  pub : Nat × Nat
deriving DecidableEq

/-- Uncompressed point encoding (elliptic.Marshal): 0x04 then both
coordinates padded to the field byte length. -/
def pointBytes (c : Curve) (P : Nat × Nat) : List Nat :=
  4 :: (natToBEPad (curveByteLen c) P.1 ++ natToBEPad (curveByteLen c) P.2)

/-- SEC 1 / RFC 5915 serialization of an EC private key
(x509.MarshalECPrivateKey): SEQUENCE of version 1, the padded private
scalar as an OCTET STRING, the explicit [0] curve OID and the explicit
[1] BIT STRING public point. -/
def marshalECPrivateKey (k : ECKey) : List Nat :=
  tlv 48 (tlv 2 [1] ++ tlv 4 (natToBEPad (curveByteLen k.curve) k.d) ++
          tlv 160 (tlv 6 (curveOID k.curve)) ++
          tlv 161 (tlv 3 (0 :: pointBytes k.curve k.pub)))

/-- PKIX (SubjectPublicKeyInfo) serialization of the public key
(x509.MarshalPKIXPublicKey): algorithm identifier with the id-ecPublicKey
and curve OIDs, then the BIT STRING public point. -/
def marshalPKIXPublicKey (k : ECKey) : List Nat :=
  tlv 48 (tlv 48 (tlv 6 [42, 134, 72, 206, 61, 2, 1] ++ tlv 6 (curveOID k.curve)) ++
          tlv 3 (0 :: pointBytes k.curve k.pub))

/-- Curve lookup from an OID (x509 namedCurveFromOID); unknown curves are
a parse error. -/
def oidToCurve (oid : List Nat) : Option Curve :=
  if oid = curveOID .P224 then some .P224
  else if oid = curveOID .P256 then some .P256
  else if oid = curveOID .P384 then some .P384
  else if oid = curveOID .P521 then some .P521
  else none

/-- Parse an EC private key (x509.ParseECPrivateKey): version must be 1,
the curve must be a supported named curve, the scalar must be below the
curve order, and the public point is recomputed from the scalar by
ScalarBaseMult (the stored public point is not consulted).  Trailing
bytes after the outer sequence are ignored, as by asn1.Unmarshal. -/
def parseECPrivateKey (der : List Nat) : Option ECKey :=
  match readTLV 48 der with
  | some (content, _) =>
      match readTLV 2 content with
      | some (vb, rest1) =>
          if vb = [1] then
            match readTLV 4 rest1 with
            | some (privBytes, rest2) =>
                match readTLV 160 rest2 with
                | some (oidOuter, rest3) =>
                    match readTLV 6 oidOuter with
                    | some (oid, _) =>
                        match oidToCurve oid with
                        | some curve =>
                            if curveOrder curve ≤ beToNat privBytes then none
                            else
                              match readTLV 161 rest3 with
                              | some _ =>
                                  some ⟨curve, beToNat privBytes,
                                        scalarBaseMult curve (beToNat privBytes)⟩
                              | none => none
                        | none => none
                    | none => none
                | none => none
            | none => none
          else none
      | none => none
  | none => none

theorem oidToCurve_curveOID (c : Curve) : oidToCurve (curveOID c) = some c := by
  cases c <;> rfl

theorem parseECPrivateKey_marshal (c : Curve) (d : Nat) (pub : Nat × Nat)
    (hd : d < curveOrder c) :
    parseECPrivateKey (marshalECPrivateKey ⟨c, d, pub⟩) =
      some ⟨c, d, scalarBaseMult c d⟩ := by
  have h48 : readTLV 48 (marshalECPrivateKey ⟨c, d, pub⟩) =
      some (tlv 2 [1] ++ (tlv 4 (natToBEPad (curveByteLen c) d) ++
        (tlv 160 (tlv 6 (curveOID c)) ++ tlv 161 (tlv 3 (0 :: pointBytes c pub)))), []) := by
    rw [show marshalECPrivateKey ⟨c, d, pub⟩ =
          tlv 48 (tlv 2 [1] ++ (tlv 4 (natToBEPad (curveByteLen c) d) ++
            (tlv 160 (tlv 6 (curveOID c)) ++ tlv 161 (tlv 3 (0 :: pointBytes c pub))))) ++ []
        from by simp [marshalECPrivateKey]]
    exact readTLV_tlv _ _ _
  have h2 := readTLV_tlv 2 [1] (tlv 4 (natToBEPad (curveByteLen c) d) ++
      (tlv 160 (tlv 6 (curveOID c)) ++ tlv 161 (tlv 3 (0 :: pointBytes c pub))))
  have h4 := readTLV_tlv 4 (natToBEPad (curveByteLen c) d)
      (tlv 160 (tlv 6 (curveOID c)) ++ tlv 161 (tlv 3 (0 :: pointBytes c pub)))
  have h160 := readTLV_tlv 160 (tlv 6 (curveOID c)) (tlv 161 (tlv 3 (0 :: pointBytes c pub)))
  have h6 : readTLV 6 (tlv 6 (curveOID c)) = some (curveOID c, []) := by
    rw [show tlv 6 (curveOID c) = tlv 6 (curveOID c) ++ [] from by simp]
    exact readTLV_tlv _ _ _
  have h161 : readTLV 161 (tlv 161 (tlv 3 (0 :: pointBytes c pub))) =
      some (tlv 3 (0 :: pointBytes c pub), []) := by
    rw [show tlv 161 (tlv 3 (0 :: pointBytes c pub)) =
          tlv 161 (tlv 3 (0 :: pointBytes c pub)) ++ [] from by simp]
    exact readTLV_tlv _ _ _
  simp only [parseECPrivateKey, h48, h2, h4, h160, h6, h161, oidToCurve_curveOID,
    beToNat_natToBEPad]
  rw [if_pos trivial, if_neg (by omega)]

/-! ## PEM armor (encoding/pem)

Encode produces a begin line, newline-terminated base64 lines of 64
characters, and an end line.  Decode scans for the first line starting
with the begin marker, takes the type from that line, collects the body
up to the matching end line, strips whitespace and base64-decodes it,
and returns everything after the end line verbatim.  (Go rescans for a
further block after certain malformed candidates; this model answers
none there, which no input considered in the theorems below exercises.) -/

/-- A decoded PEM block: type label and decoded content bytes (headers
are not produced by this program and not modeled). -/
structure PemBlock where
  label : List Nat
  bytes : List Nat
deriving DecidableEq

/-- The begin marker, 11 bytes. -/
def beginMark : List Nat := ascii "-----BEGIN "

/-- The end marker. -/
def endMark : List Nat := ascii "-----END "

/-- The closing dashes of a marker line. -/
def dashes5 : List Nat := ascii "-----"

/-- Split a byte list into lines, each line keeping its trailing newline
byte, so that the concatenation of the lines is the input. -/
def splitLines : List Nat → List (List Nat)
  | [] => []
  | b :: rest =>
      if b = 10 then [10] :: splitLines rest
      else
        match splitLines rest with
        | [] => [[b]]
        | l :: ls => (b :: l) :: ls

/-- The content of a line: its bytes before the newline. -/
def lineContent (l : List Nat) : List Nat := l.takeWhile (fun b => b != 10)

/-- Whitespace removal applied to the base64 body before decoding
(pem removeSpacesAndTabs together with the newline skipping of the
base64 reader). -/
def stripWs (bs : List Nat) : List Nat :=
  bs.filter (fun b => !(b == 9 || b == 10 || b == 13 || b == 32))

/-- Scan lines for the end line, giving the raw body bytes before it and
the bytes after it. -/
def findEndL (endLine : List Nat) : List (List Nat) → Option (List Nat × List Nat)
  | [] => none
  | l :: ls =>
      if lineContent l = endLine then some ([], ls.flatten)
      else (findEndL endLine ls).map (fun p => (l ++ p.1, p.2))

/-- Line-level PEM decoding: find the begin line, extract the type,
collect and decode the body, and return the block and the trailing
bytes. -/
def pemDecodeLines : List (List Nat) → Option (PemBlock × List Nat)
  | [] => none
  | l :: ls =>
      if beginMark.isPrefixOf (lineContent l) then
        if dashes5.isSuffixOf ((lineContent l).drop 11) then
          match findEndL (endMark ++ ((lineContent l).drop 11).take
              (((lineContent l).drop 11).length - 5) ++ dashes5) ls with
          | some (body, rest) =>
              match b64Decode (stripWs body) with
              | some der =>
                  some (⟨((lineContent l).drop 11).take
                    (((lineContent l).drop 11).length - 5), der⟩, rest)
              | none => none
          | none => none
        else none
      else pemDecodeLines ls

/-- Decoding of the first PEM block (pem.Decode): none when the input
holds no block, otherwise the block and the remaining bytes. -/
def pemDecode (data : List Nat) : Option (PemBlock × List Nat) :=
  pemDecodeLines (splitLines data)

/-- Fuel k is the room left on the current output line; lines hold 64
base64 characters. -/
def wrapAux : Nat → List Nat → List Nat
  | _, [] => [10]
  | 0, b :: s => 10 :: b :: wrapAux 63 s
  | k + 1, b :: s => b :: wrapAux k s

/-- The 64-column line wrapping of the base64 body (pem lineBreaker). -/
def wrap64 (s : List Nat) : List Nat :=
  match s with
  | [] => []
  | _ => wrapAux 64 s

/-- PEM encoding of one block (pem.EncodeToMemory). -/
def pemEncode (t der : List Nat) : List Nat :=
  (beginMark ++ t ++ dashes5 ++ [10]) ++ wrap64 (b64Encode der) ++
  (endMark ++ t ++ dashes5 ++ [10])

/-! ### PEM lemmas -/

/-- Bytes that can appear in a base64 body: alphabet byte or padding. -/
def pemBodyByte (b : Nat) : Prop := (b64Dec b).isSome = true ∨ b = 61

theorem pemBodyByte_facts (b : Nat) (h : pemBodyByte b) :
    b ≠ 9 ∧ b ≠ 10 ∧ b ≠ 13 ∧ b ≠ 32 ∧ b ≠ 45 := by
  rcases h with h | h
  · rw [b64Dec] at h
    split_ifs at h <;> first | omega | simp at h
  · omega

theorem pemBodyByte_b64Code (v : Nat) : pemBodyByte (b64Code v) := by
  left
  rw [b64Code]
  split_ifs with h1 h2 h3 h4
  · rw [b64Dec, if_pos (by omega)]
    rfl
  · rw [b64Dec, if_neg (by omega), if_pos (by omega)]
    rfl
  · rw [b64Dec, if_neg (by omega), if_neg (by omega), if_pos (by omega)]
    rfl
  · rfl
  · rfl

theorem b64Encode_mem_pemBody (bs : List Nat) : ∀ b ∈ b64Encode bs, pemBodyByte b := by
  induction bs using b64Encode.induct with
  | case1 => simp [b64Encode]
  | case2 a =>
      intro b hb
      rw [b64Encode] at hb
      simp only [List.mem_cons, List.not_mem_nil, or_false] at hb
      rcases hb with h | h | h | h
      · exact h ▸ pemBodyByte_b64Code _
      · exact h ▸ pemBodyByte_b64Code _
      · exact Or.inr h
      · exact Or.inr h
  | case3 a c =>
      intro b hb
      rw [b64Encode] at hb
      simp only [List.mem_cons, List.not_mem_nil, or_false] at hb
      rcases hb with h | h | h | h
      · exact h ▸ pemBodyByte_b64Code _
      · exact h ▸ pemBodyByte_b64Code _
      · exact h ▸ pemBodyByte_b64Code _
      · exact Or.inr h
  | case4 a c d rest ih =>
      intro b hb
      rw [b64Encode] at hb
      simp only [List.mem_cons] at hb
      rcases hb with h | h | h | h | h
      · exact h ▸ pemBodyByte_b64Code _
      · exact h ▸ pemBodyByte_b64Code _
      · exact h ▸ pemBodyByte_b64Code _
      · exact h ▸ pemBodyByte_b64Code _
      · exact ih b h

theorem b64Encode_ne_nil (bs : List Nat) (h : bs ≠ []) : b64Encode bs ≠ [] := by
  match bs with
  | [] => exact absurd rfl h
  | [a] => simp [b64Encode]
  | [a, b] => simp [b64Encode]
  | a :: b :: c :: rest => simp [b64Encode]

theorem flatten_splitLines (data : List Nat) : (splitLines data).flatten = data := by
  induction data with
  | nil => rfl
  | cons b rest ih =>
      rw [splitLines]
      by_cases hb : b = 10
      · subst hb
        simp [List.flatten, ih]
      · rw [if_neg hb]
        rcases hsp : splitLines rest with _ | ⟨l, ls⟩
        · rw [hsp] at ih
          simp at ih
          simp [ih]
        · rw [hsp] at ih
          simp only [List.flatten_cons] at ih ⊢
          simp [← ih]

theorem splitLines_append (l r : List Nat) (h10 : 10 ∉ l) :
    splitLines (l ++ 10 :: r) = (l ++ [10]) :: splitLines r := by
  induction l with
  | nil => simp [splitLines]
  | cons b l' ih =>
      have hb : b ≠ 10 := by
        intro h
        exact h10 (h ▸ List.mem_cons_self b l')
      have h10' : 10 ∉ l' := fun h => h10 (List.mem_cons_of_mem _ h)
      rw [List.cons_append, splitLines, if_neg hb, ih h10']
      rfl

theorem lineContent_cons (b : Nat) (l : List Nat) (hb : b ≠ 10) :
    lineContent (b :: l) = b :: lineContent l := by
  rw [lineContent, List.takeWhile_cons]
  simp [hb, lineContent]

theorem lineContent_append10 (l : List Nat) (h10 : 10 ∉ l) :
    lineContent (l ++ [10]) = l := by
  induction l with
  | nil => rfl
  | cons b l' ih =>
      have hb : b ≠ 10 := by
        intro h
        exact h10 (h ▸ List.mem_cons_self b l')
      have h10' : 10 ∉ l' := fun h => h10 (List.mem_cons_of_mem _ h)
      rw [List.cons_append, lineContent_cons b _ hb, ih h10']

theorem splitLines_cons_of_cons (b : Nat) (X l : List Nat) (ls : List (List Nat))
    (hb : b ≠ 10) (hX : splitLines X = l :: ls) :
    splitLines (b :: X) = (b :: l) :: ls := by
  rw [splitLines, if_neg hb, hX]

theorem findEndL_prepend (endL : List Nat) (b : Nat) (hb : b ≠ 10)
    (hbe : ∀ tl, b :: tl ≠ endL) (X body rest : List Nat)
    (hfirst : ∀ l ls, splitLines X = l :: ls → lineContent l ≠ endL)
    (h : findEndL endL (splitLines X) = some (body, rest)) :
    findEndL endL (splitLines (b :: X)) = some (b :: body, rest) := by
  rcases hX : splitLines X with _ | ⟨l, ls⟩
  · rw [hX] at h
    simp [findEndL] at h
  · rw [hX] at h
    have hne := hfirst l ls hX
    rw [findEndL, if_neg hne] at h
    rcases hrec : findEndL endL ls with _ | ⟨body', rest'⟩
    · rw [hrec] at h
      simp at h
    · rw [hrec] at h
      simp only [Option.map_some'] at h
      rw [Option.some_inj, Prod.mk.injEq] at h
      obtain ⟨h1, h2⟩ := h
      rw [splitLines_cons_of_cons b X l ls hb hX, findEndL,
        if_neg (by rw [lineContent_cons b l hb]; exact hbe _), hrec]
      simp only [Option.map_some', Option.some_inj, Prod.mk.injEq]
      constructor
      · rw [← h1]
        simp
      · exact h2

theorem splitLines_cons_of_nil (b : Nat) (X : List Nat) (hb : b ≠ 10)
    (hX : splitLines X = []) : splitLines (b :: X) = [[b]] := by
  rw [splitLines, if_neg hb, hX]

theorem wrapAux_first_content (k : Nat) (s : List Nat) (tail' : List Nat)
    (hs : ∀ b ∈ s, pemBodyByte b) (endL : List Nat) (hend45 : endL.head? = some 45) :
    ∀ l ls, splitLines (wrapAux k s ++ tail') = l :: ls → lineContent l ≠ endL := by
  rcases endL with _ | ⟨e, etl⟩
  · simp at hend45
  · have he : e = 45 := by simpa using hend45
    subst he
    intro l ls hsp heq
    rcases s with _ | ⟨b, s'⟩
    · rw [show wrapAux k [] = [10] from by rw [wrapAux]] at hsp
      rw [show ([10] : List Nat) ++ tail' = 10 :: tail' from rfl] at hsp
      rw [splitLines, if_pos rfl] at hsp
      injection hsp with h1 h2
      rw [← h1] at heq
      simp [lineContent] at heq
    · have hbB := pemBodyByte_facts b (hs b (by simp))
      rcases k with _ | j
      · rw [show wrapAux 0 (b :: s') = 10 :: b :: wrapAux 63 s' from by rw [wrapAux]] at hsp
        rw [List.cons_append, splitLines, if_pos rfl] at hsp
        injection hsp with h1 h2
        rw [← h1] at heq
        simp [lineContent] at heq
      · rw [show wrapAux (j + 1) (b :: s') = b :: wrapAux j s' from by rw [wrapAux]] at hsp
        rw [List.cons_append] at hsp
        rcases hin : splitLines (wrapAux j s' ++ tail') with _ | ⟨l0, ls0⟩
        · rw [splitLines_cons_of_nil b _ hbB.2.1 hin] at hsp
          injection hsp with h1 h2
          rw [← h1] at heq
          rw [lineContent_cons b [] hbB.2.1] at heq
          injection heq with h3 h4
          omega
        · rw [splitLines_cons_of_cons b _ l0 ls0 hbB.2.1 hin] at hsp
          injection hsp with h1 h2
          rw [← h1] at heq
          rw [lineContent_cons b l0 hbB.2.1] at heq
          injection heq with h3 h4
          omega

theorem findEndL_wrapAux (endL : List Nat) (hend10 : 10 ∉ endL)
    (hend45 : endL.head? = some 45) :
    ∀ k s, (∀ b ∈ s, pemBodyByte b) → ∀ rest,
      findEndL endL (splitLines (wrapAux k s ++ (endL ++ 10 :: rest))) =
        some (wrapAux k s, rest) := by
  have hendne : endL ≠ [] := by
    intro h
    rw [h] at hend45
    simp at hend45
  intro k s
  induction k, s using wrapAux.induct with
  | case1 k =>
      intro hs rest
      rw [show wrapAux k [] = [10] from by rw [wrapAux]]
      rw [show ([10] : List Nat) ++ (endL ++ 10 :: rest) = 10 :: (endL ++ 10 :: rest) from rfl]
      rw [splitLines, if_pos rfl, splitLines_append _ _ hend10]
      rw [findEndL, if_neg (by simp [lineContent]; exact fun h => hendne h)]
      rw [findEndL, if_pos (lineContent_append10 _ hend10)]
      simp [flatten_splitLines]
  | case2 b s ih =>
      intro hs rest
      have hbB := pemBodyByte_facts b (hs b (by simp))
      have hs' : ∀ x ∈ s, pemBodyByte x := fun x hx => hs x (by simp [hx])
      rw [show wrapAux 0 (b :: s) = 10 :: b :: wrapAux 63 s from by rw [wrapAux]]
      rw [List.cons_append, List.cons_append, splitLines, if_pos rfl]
      rw [findEndL, if_neg (by simp [lineContent]; exact fun h => hendne h)]
      have hbe : ∀ tl, b :: tl ≠ endL := by
        intro tl h
        rw [← h] at hend45
        simp at hend45
        omega
      have hprep := findEndL_prepend endL b hbB.2.1 hbe (wrapAux 63 s ++ (endL ++ 10 :: rest))
        (wrapAux 63 s) rest
        (wrapAux_first_content 63 s (endL ++ 10 :: rest) hs' endL hend45)
        (ih hs' rest)
      rw [hprep]
      simp

  | case3 k b s ih =>
      intro hs rest
      have hbB := pemBodyByte_facts b (hs b (by simp))
      have hs' : ∀ x ∈ s, pemBodyByte x := fun x hx => hs x (by simp [hx])
      rw [show wrapAux (k + 1) (b :: s) = b :: wrapAux k s from by rw [wrapAux]]
      rw [List.cons_append]
      have hbe : ∀ tl, b :: tl ≠ endL := by
        intro tl h
        rw [← h] at hend45
        simp at hend45
        omega
      have hprep := findEndL_prepend endL b hbB.2.1 hbe (wrapAux k s ++ (endL ++ 10 :: rest))
        (wrapAux k s) rest
        (wrapAux_first_content k s (endL ++ 10 :: rest) hs' endL hend45)
        (ih hs' rest)
      exact hprep

theorem stripWs_wrapAux : ∀ k s, (∀ b ∈ s, pemBodyByte b) → stripWs (wrapAux k s) = s := by
  intro k s
  induction k, s using wrapAux.induct with
  | case1 k =>
      intro hs
      rw [show wrapAux k [] = [10] from by rw [wrapAux]]
      rfl
  | case2 b s ih =>
      intro hs
      have hbB := pemBodyByte_facts b (hs b (by simp))
      have hs' : ∀ x ∈ s, pemBodyByte x := fun x hx => hs x (by simp [hx])
      rw [show wrapAux 0 (b :: s) = 10 :: b :: wrapAux 63 s from by rw [wrapAux]]
      have hstep : stripWs (10 :: b :: wrapAux 63 s) = b :: stripWs (wrapAux 63 s) := by
        simp [stripWs, List.filter_cons, hbB.1, hbB.2.1, hbB.2.2.1, hbB.2.2.2.1]
      rw [hstep, ih hs']
  | case3 k b s ih =>
      intro hs
      have hbB := pemBodyByte_facts b (hs b (by simp))
      have hs' : ∀ x ∈ s, pemBodyByte x := fun x hx => hs x (by simp [hx])
      rw [show wrapAux (k + 1) (b :: s) = b :: wrapAux k s from by rw [wrapAux]]
      have hstep : stripWs (b :: wrapAux k s) = b :: stripWs (wrapAux k s) := by
        simp [stripWs, List.filter_cons, hbB.1, hbB.2.1, hbB.2.2.1, hbB.2.2.2.1]
      rw [hstep, ih hs']

theorem pemDecode_pemEncode (t der rest : List Nat)
    (ht10 : 10 ∉ t) (hder : der ≠ []) (hbytes : ∀ b ∈ der, b < 256) :
    pemDecode (pemEncode t der ++ rest) = some (⟨t, der⟩, rest) := by
  have hBne : b64Encode der ≠ [] := b64Encode_ne_nil der hder
  have hBmem := b64Encode_mem_pemBody der
  have hbl10 : 10 ∉ beginMark ++ t ++ dashes5 := by
    intro h
    rcases List.mem_append.mp h with h | h
    · rcases List.mem_append.mp h with h | h
      · revert h
        decide
      · exact ht10 h
    · revert h
      decide
  have hel10 : 10 ∉ endMark ++ t ++ dashes5 := by
    intro h
    rcases List.mem_append.mp h with h | h
    · rcases List.mem_append.mp h with h | h
      · revert h
        decide
      · exact ht10 h
    · revert h
      decide
  have hend45 : (endMark ++ t ++ dashes5).head? = some 45 := rfl
  have hw : wrap64 (b64Encode der) = wrapAux 64 (b64Encode der) := by
    rcases hB : b64Encode der with _ | ⟨x, xs⟩
    · exact absurd hB hBne
    · rfl
  have hdata : pemEncode t der ++ rest =
      (beginMark ++ t ++ dashes5) ++ 10 :: (wrapAux 64 (b64Encode der) ++
        ((endMark ++ t ++ dashes5) ++ 10 :: rest)) := by
    rw [pemEncode, hw]
    simp [List.append_assoc]
  rw [pemDecode, hdata, splitLines_append _ _ hbl10]
  have hc1 : lineContent ((beginMark ++ t ++ dashes5) ++ [10]) = beginMark ++ t ++ dashes5 :=
    lineContent_append10 _ hbl10
  have hpref : beginMark.isPrefixOf (beginMark ++ t ++ dashes5) = true := by
    rw [List.isPrefixOf_iff_prefix, List.append_assoc]
    exact List.prefix_append _ _
  have hdrop : (beginMark ++ t ++ dashes5).drop 11 = t ++ dashes5 := by
    rw [List.append_assoc, show (11 : Nat) = beginMark.length from rfl, drop_len_append]
  have hsuf : dashes5.isSuffixOf (t ++ dashes5) = true := by
    rw [List.isSuffixOf_iff_suffix]
    exact List.suffix_append _ _
  have htake : (t ++ dashes5).take ((t ++ dashes5).length - 5) = t := by
    rw [show (t ++ dashes5).length - 5 = t.length from by simp [dashes5, ascii], take_len_append]
  have hfind := findEndL_wrapAux (endMark ++ t ++ dashes5) hel10 hend45 64
    (b64Encode der) hBmem rest
  have hstrip : stripWs (wrapAux 64 (b64Encode der)) = b64Encode der :=
    stripWs_wrapAux 64 _ hBmem
  have hdec : b64Decode (b64Encode der) = some der := b64Decode_b64Encode der hbytes
  simp only [pemDecodeLines, hc1, hpref, hdrop, hsuf, htake, if_true]
  rw [hfind]
  simp only [hstrip, hdec]

/-! ## The program (src/main.go) -/

/-- The output struct of the source (main.go lines 256-260), holding the
three artifact fields. -/
structure output where
  message : List Nat
  signature : List Nat
  pubkey : List Nat
deriving DecidableEq

/-- The sign function of the source (main.go lines 185-220) with the
ECDSA nonce explicit: SHA-256 the input via shaSum, sign the digest with
ecdsa.Sign, asn1.Marshal the ecdsaSig pair, base64 it, and assemble the
output artifact with the input and the caller-supplied public-key text
unchanged.  The trailing json.MarshalIndent step renders the three fields
of the returned artifact and is not itself modeled. -/
def sign (C : CurveGroup) (d k : Nat) (input pubKey : List Nat) : Option output :=
  match ecdsaSignWith C d k (shaSum input) with
  | none => none
  | some (r, s) => some ⟨input, b64Encode (asn1MarshalSig r s), pubKey⟩

/-- Result of one useKey run: a runtime panic, an error return, or the
key with the trailing public-key text. -/
inductive UseKeyResult where
  | panics
  | fails
  | ok (key : ECKey) (pubText : List Nat)
deriving DecidableEq

/-- The useKey function of the source (main.go lines 156-179): read the
file, pem.Decode the contents, and x509-parse the first block; the bytes
after the block are returned verbatim as the public-key text.  When the
contents hold no PEM block, pem.Decode returns a nil block and the
unchecked block.Bytes access at line 171 dereferences a nil pointer,
modeled as the panics result. -/
def useKey (contents : List Nat) : UseKeyResult :=
  match pemDecode contents with
  | none => .panics
  | some (block, rest) =>
      match parseECPrivateKey block.bytes with
      | none => .fails
      | some key => .ok key rest

/-- Outcomes of the effectful steps of one createSaveKey run: the
os.OpenFile call, the ecdsa.GenerateKey call, and the two WriteString
calls. -/
structure IOEnv where
  openOk : Bool
  genOk : Bool
  write1Ok : Bool
  write2Ok : Bool
deriving DecidableEq

/-- All effects succeed. -/
def allOk : IOEnv := ⟨true, true, true, true⟩

/-- Result of one createSaveKey run. -/
inductive CreateResult where
  | fails
  | ok (key : ECKey) (pubText : List Nat)
deriving DecidableEq

/-- The createSaveKey function of the source (main.go lines 87-151) with
randomness and I/O outcomes explicit: open-create the file, generate a
P-521 key (its scalar and point stand for the draw from the secure random
source), PEM-encode the PKIX public block and the EC private block, write
the private then the public block, and return the key with the public
block text.  The error results of the two WriteString calls at lines
145-146 are discarded by the source: a failed write leaves its block out
of the file content without changing the returned value. -/
def createSaveKey (env : IOEnv) (gd : Nat) (gpub : Nat × Nat) (fs : Option (List Nat)) :
    CreateResult × Option (List Nat) :=
  if !env.openOk then (.fails, fs)
  else if !env.genOk then (.fails, some [])
  else
    (.ok ⟨Curve.P521, gd, gpub⟩
       (pemEncode (ascii "PUBLIC KEY") (marshalPKIXPublicKey ⟨Curve.P521, gd, gpub⟩)),
     some ((if env.write1Ok then
              pemEncode (ascii "PRIVATE KEY") (marshalECPrivateKey ⟨Curve.P521, gd, gpub⟩)
            else []) ++
           (if env.write2Ok then
              pemEncode (ascii "PUBLIC KEY") (marshalPKIXPublicKey ⟨Curve.P521, gd, gpub⟩)
            else [])))

/-- Result of the key-acquisition step of main. -/
inductive LoadResult where
  | fails
  | panics
  | ok (key : ECKey) (pubText : List Nat)
deriving DecidableEq

/-- The load-or-create flow of main (main.go lines 50-62): stat the key
file; when it does not exist run createSaveKey, otherwise read it and run
useKey.  The optional byte list is the key-file content; useKey performs
no writes, so on that path the state is returned unchanged. -/
def loadOrCreate (env : IOEnv) (gd : Nat) (gpub : Nat × Nat) (fs : Option (List Nat)) :
    LoadResult × Option (List Nat) :=
  match fs with
  | none =>
      match createSaveKey env gd gpub none with
      | (.fails, fs2) => (.fails, fs2)
      | (.ok key pub, fs2) => (.ok key pub, fs2)
  | some contents =>
      match useKey contents with
      | .panics => (.panics, some contents)
      | .fails => (.fails, some contents)
      | .ok key pub => (.ok key pub, some contents)

/-! ### digest length and marshal byte bounds -/

/-- All eight words of a working state are 32-bit. -/
def Hash8.bounded (s : Hash8) : Prop :=
  s.a < 4294967296 ∧ s.b < 4294967296 ∧ s.c < 4294967296 ∧ s.d < 4294967296 ∧
  s.e < 4294967296 ∧ s.f < 4294967296 ∧ s.g < 4294967296 ∧ s.h < 4294967296

theorem w32_lt (x : Nat) : w32 x < 4294967296 := Nat.mod_lt _ (by norm_num)

theorem processChunk_bounded (s : Hash8) (c : List Nat) : (processChunk s c).bounded := by
  refine ⟨w32_lt _, w32_lt _, w32_lt _, w32_lt _, w32_lt _, w32_lt _, w32_lt _, w32_lt _⟩

theorem foldl_processChunk_bounded (chunks : List (List Nat)) (s : Hash8)
    (hs : s.bounded) : (chunks.foldl processChunk s).bounded := by
  induction chunks generalizing s with
  | nil => exact hs
  | cons c cs ih =>
      rw [List.foldl_cons]
      exact ih _ (processChunk_bounded s c)

theorem sha256_length (m : List Nat) : (sha256 m).length = 32 := by
  have hb : ((chunks64 (sha256Pad m).length (sha256Pad m)).foldl processChunk sha256H0).bounded :=
    foldl_processChunk_bounded _ _ (by constructor <;> norm_num [sha256H0] <;> norm_num)
  obtain ⟨h1, h2, h3, h4, h5, h6, h7, h8⟩ := hb
  rw [sha256]
  simp only [List.length_append]
  rw [natToBEPad_length 4 _ h1, natToBEPad_length 4 _ h2, natToBEPad_length 4 _ h3,
    natToBEPad_length 4 _ h4, natToBEPad_length 4 _ h5, natToBEPad_length 4 _ h6,
    natToBEPad_length 4 _ h7, natToBEPad_length 4 _ h8]

theorem shaSum_length (m : List Nat) : (shaSum m).length = 32 := by
  rw [shaSum, List.length_map, sha256_length]

theorem curveOrder_lt_pow (c : Curve) : curveOrder c < 256 ^ curveByteLen c := by
  cases c <;> decide

theorem curveByteLen_le (c : Curve) : curveByteLen c ≤ 66 := by
  cases c <;> decide

theorem curveOID_mem_lt (c : Curve) : ∀ b ∈ curveOID c, b < 256 := by
  cases c <;> decide

theorem curveOID_length_le (c : Curve) : (curveOID c).length ≤ 8 := by
  cases c <;> decide

theorem marshalECPrivateKey_mem_lt (c : Curve) (d : Nat) (pub : Nat × Nat)
    (hd : d < 256 ^ curveByteLen c) (hx : pub.1 < 256 ^ curveByteLen c)
    (hy : pub.2 < 256 ^ curveByteLen c) :
    ∀ b ∈ marshalECPrivateKey ⟨c, d, pub⟩, b < 256 := by
  have hbl := curveByteLen_le c
  have hdlen : (natToBEPad (curveByteLen c) d).length = curveByteLen c :=
    natToBEPad_length _ _ hd
  have hxlen : (natToBEPad (curveByteLen c) pub.1).length = curveByteLen c :=
    natToBEPad_length _ _ hx
  have hylen : (natToBEPad (curveByteLen c) pub.2).length = curveByteLen c :=
    natToBEPad_length _ _ hy
  have hptlen : (pointBytes c pub).length = 1 + 2 * curveByteLen c := by
    simp [pointBytes, hxlen, hylen]
    omega
  have hpt : ∀ b ∈ pointBytes c pub, b < 256 := by
    intro b hb
    rcases List.mem_cons.mp hb with h | h
    · omega
    · rcases List.mem_append.mp h with h | h
      · exact natToBEPad_mem_lt _ _ b h
      · exact natToBEPad_mem_lt _ _ b h
  have htlv21 : tlv 2 [1] = [2, 1, 1] := rfl
  have hver : ∀ b ∈ tlv 2 [1], b < 256 := by
    rw [htlv21]
    intro b hb
    fin_cases hb <;> omega
  have hverlen : (tlv 2 [1]).length = 3 := rfl
  have hpriv : ∀ b ∈ tlv 4 (natToBEPad (curveByteLen c) d), b < 256 :=
    tlv_mem_lt 4 _ (by norm_num) (by rw [hdlen]; exact le_pow_127 _ (by omega))
      (natToBEPad_mem_lt _ _)
  have hprivlen : (tlv 4 (natToBEPad (curveByteLen c) d)).length ≤ 2 + 66 := by
    rw [tlv, derLen, if_pos (by omega)]
    simp [hdlen]
    omega
  have hoid : ∀ b ∈ tlv 6 (curveOID c), b < 256 :=
    tlv_mem_lt 6 _ (by norm_num) (le_pow_127 _ (by have := curveOID_length_le c; omega))
      (curveOID_mem_lt c)
  have hoidlen : (tlv 6 (curveOID c)).length ≤ 10 := by
    have := curveOID_length_le c
    rw [tlv, derLen, if_pos (by omega)]
    simp
    omega
  have hoid0 : ∀ b ∈ tlv 160 (tlv 6 (curveOID c)), b < 256 :=
    tlv_mem_lt 160 _ (by norm_num) (le_pow_127 _ (by have := hoidlen; omega)) hoid
  have hoid0len : (tlv 160 (tlv 6 (curveOID c))).length ≤ 12 := by
    rw [tlv, derLen, if_pos (by have := hoidlen; omega)]
    simp
    omega
  have hbit : ∀ b ∈ tlv 3 (0 :: pointBytes c pub), b < 256 := by
    apply tlv_mem_lt 3 _ (by norm_num)
    · apply le_pow_127
      simp [hptlen]
      omega
    · intro b hb
      rcases List.mem_cons.mp hb with h | h
      · omega
      · exact hpt b h
  have hbitlen : (tlv 3 (0 :: pointBytes c pub)).length ≤ 3 + 134 := by
    rw [tlv]
    have hlen : (0 :: pointBytes c pub).length = 2 + 2 * curveByteLen c := by
      simp [hptlen]
      omega
    rw [hlen]
    by_cases hsh : 2 + 2 * curveByteLen c < 128
    · rw [derLen, if_pos hsh]
      simp
      omega
    · rw [derLen, if_neg hsh]
      have : (natToBE (2 + 2 * curveByteLen c)).length ≤ 1 := by
        apply natToBE_length_le
        omega
      simp
      omega
  have hpub1 : ∀ b ∈ tlv 161 (tlv 3 (0 :: pointBytes c pub)), b < 256 :=
    tlv_mem_lt 161 _ (by norm_num) (le_pow_127 _ (by have := hbitlen; omega)) hbit
  rw [show marshalECPrivateKey ⟨c, d, pub⟩ =
        tlv 48 (tlv 2 [1] ++ tlv 4 (natToBEPad (curveByteLen c) d) ++
          tlv 160 (tlv 6 (curveOID c)) ++ tlv 161 (tlv 3 (0 :: pointBytes c pub))) from rfl]
  apply tlv_mem_lt 48 _ (by norm_num)
  · apply le_pow_127
    have h161len : (tlv 161 (tlv 3 (0 :: pointBytes c pub))).length ≤ 2 + 2 + 137 := by
      rw [tlv]
      by_cases hsh : (tlv 3 (0 :: pointBytes c pub)).length < 128
      · rw [derLen, if_pos hsh]
        simp
        omega
      · rw [derLen, if_neg hsh]
        have : (natToBE (tlv 3 (0 :: pointBytes c pub)).length).length ≤ 1 := by
          apply natToBE_length_le
          omega
        simp
        omega
    simp only [List.length_append]
    omega
  · intro b hb
    rcases List.mem_append.mp hb with h | h
    · rcases List.mem_append.mp h with h | h
      · rcases List.mem_append.mp h with h | h
        · exact hver b h
        · exact hpriv b h
      · exact hoid0 b h
    · exact hpub1 b h

/-! ### shared helper: decoding a freshly marshalled private block -/

theorem useKey_pem_marshal (c : Curve) (d x y : Nat) (hd : d < curveOrder c)
    (hx : x < 256 ^ curveByteLen c) (hy : y < 256 ^ curveByteLen c) (rest : List Nat) :
    useKey (pemEncode (ascii "PRIVATE KEY") (marshalECPrivateKey ⟨c, d, (x, y)⟩) ++ rest) =
      .ok ⟨c, d, scalarBaseMult c d⟩ rest := by
  have h10 : (10 : Nat) ∉ ascii "PRIVATE KEY" := by decide
  have hder_ne : marshalECPrivateKey ⟨c, d, (x, y)⟩ ≠ [] := by
    simp [marshalECPrivateKey, tlv]
  have hbytes := marshalECPrivateKey_mem_lt c d (x, y)
    (by have := curveOrder_lt_pow c; omega) hx hy
  simp only [useKey, pemDecode_pemEncode _ _ _ h10 hder_ne hbytes,
    parseECPrivateKey_marshal c d (x, y) hd]

/-! ## The claims -/

/-- C1: for every message and every key in the curve model, the signature
field of the artifact returned by sign, after base64 decoding and ASN.1
decoding into a pair, verifies under the key's public point against the
SHA-256 digest of the message's raw bytes: ecdsa.Verify returns true. -/
theorem C1_sign_artifact_verifies (C : CurveGroup) [Fact (Nat.Prime C.n)]
    (hn : C.n < 256 ^ 126) (d k : Nat) (m pubText : List Nat) (art : output)
    (hsig : sign C d k m pubText = some art) :
    ∃ r s : Nat, sigTextDecode art.signature = some ((r : Int), (s : Int)) ∧
      ecdsaVerify C d (shaSum m) r s = true := by
  have hpos : 0 < C.n := (Fact.out (p := Nat.Prime C.n)).pos
  rw [sign] at hsig
  rcases hrs : ecdsaSignWith C d k (shaSum m) with _ | ⟨r, s⟩
  · rw [hrs] at hsig
    simp at hsig
  · rw [hrs] at hsig
    simp only [Option.some_inj] at hsig
    refine ⟨r, s, ?_, ecdsaVerify_ecdsaSignWith C d k (shaSum m) r s hrs⟩
    have hart : art.signature = b64Encode (asn1MarshalSig r s) := by
      rw [← hsig]
    rw [hart]
    have hbound : r < C.n ∧ s < C.n := by
      rw [ecdsaSignWith] at hrs
      split_ifs at hrs
      rw [Option.some_inj, Prod.mk.injEq] at hrs
      obtain ⟨h1, h2⟩ := hrs
      constructor
      · rw [← h1]
        exact Nat.mod_lt _ hpos
      · rw [← h2]
        exact Nat.mod_lt _ hpos
    exact sigTextDecode_sigTextEncode r s (by omega) (by omega)

theorem C1_sign_artifact_verifies_witness :
    ∃ r s : Nat,
      sigTextDecode (output.mk [] (b64Encode (asn1MarshalSig 5 11)) []).signature =
        some ((r : Int), (s : Int)) ∧
      ecdsaVerify ⟨13, fun i => i⟩ 3 (shaSum []) r s = true :=
  @C1_sign_artifact_verifies ⟨13, fun i => i⟩ ⟨by norm_num⟩ (by decide) 3 5 [] []
    (output.mk [] (b64Encode (asn1MarshalSig 5 11)) []) (by decide)

/-- C2: encoding a P-521 key pair with createSaveKey writes the private
block followed by the public block, and decoding that record with useKey
reproduces the same private scalar and public point, with the returned
public-key text byte-identical to the public block produced by the
encoder. -/
theorem C2_key_encode_decode_roundtrip (d x y : Nat) (hd : d < curveOrder .P521)
    (hx : x < 256 ^ 66) (hy : y < 256 ^ 66) (hpub : (x, y) = scalarBaseMult .P521 d)
    (fs : Option (List Nat)) :
    createSaveKey allOk d (x, y) fs =
      (.ok ⟨.P521, d, (x, y)⟩
         (pemEncode (ascii "PUBLIC KEY") (marshalPKIXPublicKey ⟨.P521, d, (x, y)⟩)),
       some (pemEncode (ascii "PRIVATE KEY") (marshalECPrivateKey ⟨.P521, d, (x, y)⟩) ++
             pemEncode (ascii "PUBLIC KEY") (marshalPKIXPublicKey ⟨.P521, d, (x, y)⟩))) ∧
    useKey (pemEncode (ascii "PRIVATE KEY") (marshalECPrivateKey ⟨.P521, d, (x, y)⟩) ++
            pemEncode (ascii "PUBLIC KEY") (marshalPKIXPublicKey ⟨.P521, d, (x, y)⟩)) =
      .ok ⟨.P521, d, (x, y)⟩
        (pemEncode (ascii "PUBLIC KEY") (marshalPKIXPublicKey ⟨.P521, d, (x, y)⟩)) := by
  constructor
  · rfl
  · rw [useKey_pem_marshal .P521 d x y hd hx hy, ← hpub]

theorem C2_key_encode_decode_roundtrip_witness :
    useKey (pemEncode (ascii "PRIVATE KEY")
        (marshalECPrivateKey ⟨.P521, 1, ((curveG .P521).1, (curveG .P521).2)⟩) ++
      pemEncode (ascii "PUBLIC KEY")
        (marshalPKIXPublicKey ⟨.P521, 1, ((curveG .P521).1, (curveG .P521).2)⟩)) =
      .ok ⟨.P521, 1, ((curveG .P521).1, (curveG .P521).2)⟩
        (pemEncode (ascii "PUBLIC KEY")
          (marshalPKIXPublicKey ⟨.P521, 1, ((curveG .P521).1, (curveG .P521).2)⟩)) :=
  (C2_key_encode_decode_roundtrip 1 (curveG .P521).1 (curveG .P521).2
    (by decide) (by decide) (by decide) (by decide) none).2

/-- C3: encoding a pair of non-negative integers as the ASN.1 marshal of
ecdsaSig followed by standard padded base64, then decoding, yields exactly
the same pair with no truncation of magnitude. -/
theorem C3_signature_codec_roundtrip (r s : Nat)
    (hr : r < 256 ^ 126) (hs : s < 256 ^ 126) :
    sigTextDecode (sigTextEncode r s) = some ((r : Int), (s : Int)) :=
  sigTextDecode_sigTextEncode r s hr hs

theorem C3_signature_codec_roundtrip_witness :
    sigTextDecode (sigTextEncode 200 1) = some ((200 : Int), (1 : Int)) :=
  C3_signature_codec_roundtrip 200 1 (by decide) (by decide)

/-- C4: a file whose contents hold no PEM block at all makes useKey
dereference the nil block returned by pem.Decode: the program panics at
run time instead of returning an error to the caller. -/
theorem C4_useKey_panics_without_pem_block :
    useKey (ascii "hello") = .panics ∧ useKey [] = .panics := by
  constructor <;> decide

/-- C5: when both WriteString calls fail, createSaveKey still answers ok
with the key pair and public text while the persisted file stays empty:
the write errors are discarded by the source, not surfaced. -/
theorem C5_createSaveKey_ignores_write_errors (gd : Nat) (gpub : Nat × Nat)
    (fs : Option (List Nat)) :
    createSaveKey ⟨true, true, false, false⟩ gd gpub fs =
      (.ok ⟨Curve.P521, gd, gpub⟩
         (pemEncode (ascii "PUBLIC KEY") (marshalPKIXPublicKey ⟨Curve.P521, gd, gpub⟩)),
       some []) := rfl

/-- C6: for every input byte string of any length and content, and every
nonce draw that the signing sampler accepts, sign succeeds and the
artifact's message field equals the input verbatim and its pubkey field
equals the caller-supplied public-key text verbatim. -/
theorem C6_sign_fields_verbatim (C : CurveGroup) (d k : Nat) (input pubKey : List Nat)
    (hk : k % C.n ≠ 0)
    (hr : C.xOfMul (k % C.n) % C.n ≠ 0)
    (hs : invMod C.n k * (hashToInt C.n (shaSum input) + C.xOfMul (k % C.n) % C.n * d)
            % C.n ≠ 0) :
    ∃ art : output, sign C d k input pubKey = some art ∧
      art.message = input ∧ art.pubkey = pubKey := by
  refine ⟨⟨input, b64Encode (asn1MarshalSig (C.xOfMul (k % C.n) % C.n)
    (invMod C.n k * (hashToInt C.n (shaSum input) + C.xOfMul (k % C.n) % C.n * d) % C.n)),
    pubKey⟩, ?_, rfl, rfl⟩
  rw [sign, ecdsaSignWith, if_neg hk, if_neg hr, if_neg hs]

theorem C6_sign_fields_verbatim_witness :
    ∃ art : output, sign ⟨13, fun i => i⟩ 2 3 [255, 254] [0] = some art ∧
      art.message = [255, 254] ∧ art.pubkey = [0] :=
  C6_sign_fields_verbatim ⟨13, fun i => i⟩ 2 3 [255, 254] [0]
    (by decide) (by decide) (by decide)

/-- C7 counterexample: a file holding a valid P-256 private-key block is
accepted by useKey with the foreign-curve key, not rejected with an
error, so decoding is not restricted to the fixed curve P-521. -/
theorem C7_counterexample_p256_key_accepted :
    useKey (pemEncode (ascii "PRIVATE KEY")
        (marshalECPrivateKey ⟨.P256, 1, curveG .P256⟩)) =
      .ok ⟨.P256, 1, scalarBaseMult .P256 1⟩ [] ∧
    useKey (pemEncode (ascii "PRIVATE KEY")
        (marshalECPrivateKey ⟨.P256, 1, curveG .P256⟩)) ≠ .fails := by
  constructor <;> decide

/-- C7 amended: useKey accepts every private-key block that parses as a
valid EC private key on any of the named curves x509 supports, P-521 or
not, returning that key; an error is returned only when parsing fails,
not when the curve differs from P-521. -/
theorem C7_amended_any_supported_curve (c : Curve) (d x y : Nat) (hd : d < curveOrder c)
    (hx : x < 256 ^ curveByteLen c) (hy : y < 256 ^ curveByteLen c) (rest : List Nat) :
    useKey (pemEncode (ascii "PRIVATE KEY") (marshalECPrivateKey ⟨c, d, (x, y)⟩) ++ rest) =
      .ok ⟨c, d, scalarBaseMult c d⟩ rest :=
  useKey_pem_marshal c d x y hd hx hy rest

theorem C7_amended_any_supported_curve_witness :
    useKey (pemEncode (ascii "PRIVATE KEY")
        (marshalECPrivateKey ⟨.P256, 2, ((curveG .P256).1, (curveG .P256).2)⟩) ++ [33]) =
      .ok ⟨.P256, 2, scalarBaseMult .P256 2⟩ [33] :=
  C7_amended_any_supported_curve .P256 2 (curveG .P256).1 (curveG .P256).2
    (by decide) (by decide) (by decide) [33]

/-- C8: running load-or-create on an absent file creates the record and
returns the public text; running it again on the resulting file returns
the same public text and leaves the file content unchanged, reading only. -/
theorem C8_load_or_create_idempotent (d x y : Nat) (hd : d < curveOrder .P521)
    (hx : x < 256 ^ 66) (hy : y < 256 ^ 66) :
    ∃ key1 key2 content,
      loadOrCreate allOk d (x, y) none =
        (.ok key1 (pemEncode (ascii "PUBLIC KEY")
          (marshalPKIXPublicKey ⟨.P521, d, (x, y)⟩)), some content) ∧
      loadOrCreate allOk d (x, y) (some content) =
        (.ok key2 (pemEncode (ascii "PUBLIC KEY")
          (marshalPKIXPublicKey ⟨.P521, d, (x, y)⟩)), some content) := by
  refine ⟨⟨.P521, d, (x, y)⟩, ⟨.P521, d, scalarBaseMult .P521 d⟩,
    pemEncode (ascii "PRIVATE KEY") (marshalECPrivateKey ⟨.P521, d, (x, y)⟩) ++
      pemEncode (ascii "PUBLIC KEY") (marshalPKIXPublicKey ⟨.P521, d, (x, y)⟩), ?_, ?_⟩
  · rfl
  · simp only [loadOrCreate, useKey_pem_marshal .P521 d x y hd hx hy]

theorem C8_load_or_create_idempotent_witness :
    ∃ key1 key2 content,
      loadOrCreate allOk 1 ((curveG .P521).1, (curveG .P521).2) none =
        (.ok key1 (pemEncode (ascii "PUBLIC KEY")
          (marshalPKIXPublicKey ⟨.P521, 1, ((curveG .P521).1, (curveG .P521).2)⟩)),
         some content) ∧
      loadOrCreate allOk 1 ((curveG .P521).1, (curveG .P521).2) (some content) =
        (.ok key2 (pemEncode (ascii "PUBLIC KEY")
          (marshalPKIXPublicKey ⟨.P521, 1, ((curveG .P521).1, (curveG .P521).2)⟩)),
         some content) :=
  C8_load_or_create_idempotent 1 (curveG .P521).1 (curveG .P521).2
    (by decide) (by decide) (by decide)

/-- C9: the fixed algorithm pairing of the program: a key generated on
first use is a P-521 key, every digest is the 32-byte SHA-256 checksum,
and the signature of an artifact is exactly the ECDSA signature of the
shaSum digest of the message. -/
theorem C9_p521_sha256_pairing :
    (∀ gd gpub fs, (createSaveKey allOk gd gpub fs).1 =
       .ok ⟨Curve.P521, gd, gpub⟩
         (pemEncode (ascii "PUBLIC KEY") (marshalPKIXPublicKey ⟨Curve.P521, gd, gpub⟩))) ∧
    (∀ m : List Nat, (shaSum m).length = 32) ∧
    (∀ C d k input pubKey, sign C d k input pubKey =
       (ecdsaSignWith C d k (shaSum input)).map
         (fun rs => ⟨input, b64Encode (asn1MarshalSig rs.1 rs.2), pubKey⟩)) := by
  refine ⟨fun gd gpub fs => rfl, shaSum_length, fun C d k input pubKey => ?_⟩
  rcases h : ecdsaSignWith C d k (shaSum input) with _ | ⟨r, s⟩ <;> simp [sign, h]

/-- C10: useKey validates nothing after the private block: whenever the
first PEM block parses as a valid EC private key, useKey succeeds and
returns every byte after that block verbatim as the public-key text,
well formed or not. -/
theorem C10_useKey_returns_trailing_bytes_verbatim (contents : List Nat)
    (block : PemBlock) (rest : List Nat) (key : ECKey)
    (h1 : pemDecode contents = some (block, rest))
    (h2 : parseECPrivateKey block.bytes = some key) :
    useKey contents = .ok key rest := by
  simp only [useKey, h1, h2]

theorem C10_useKey_returns_trailing_bytes_verbatim_witness :
    useKey (pemEncode (ascii "PRIVATE KEY")
        (marshalECPrivateKey ⟨.P521, 1, curveG .P521⟩) ++ [104, 105]) =
      .ok ⟨.P521, 1, scalarBaseMult .P521 1⟩ [104, 105] :=
  C10_useKey_returns_trailing_bytes_verbatim
    (pemEncode (ascii "PRIVATE KEY")
      (marshalECPrivateKey ⟨.P521, 1, curveG .P521⟩) ++ [104, 105])
    ⟨ascii "PRIVATE KEY", marshalECPrivateKey ⟨.P521, 1, curveG .P521⟩⟩
    [104, 105] ⟨.P521, 1, scalarBaseMult .P521 1⟩ (by decide) (by decide)

end SignerGo
